import Mathlib

/-!
# `fuse` (src/units/fuse.cpp)

```
NumericVector fuse(NumericVector x) {
  int n = x.size();
  NumericVector result(n);
  for(int i = 0; i < n; ++i) {
    result[i] = exp(x[i]) + 3 * sin(x[i]);
  }
  return result;
}
```

The double-precision primitives (`exp`, `sin`, `+`, `*`, the conversion of the
`int` literal `3`, the zero used to fill a new vector) are not part of the
repository: they are taken as a parameter `Prim α`.  Vectors are lists; a read
or write outside the bounds of a vector is reported as an error instead of
being undefined, so that its absence can be stated.  The loop carries a bound
on its iterations; `fuse` is shown never to reach it.

`fuse` is the call on the elements of its argument; `fuseIn` is the same call
over a heap of vectors addressed by handle, used where the identity of the
returned vector matters.
-/

namespace Fuse

/-- Primitive operations on the element type used by `fuse`. -/
structure Prim (α : Type) where
  exp : α → α
  sin : α → α
  add : α → α → α
  mul : α → α → α
  ofInt : Int → α
  zero : α

/-- Ways in which a run of the embedding can stop without a result. -/
inductive Error where
  | negativeLength
  | indexOutOfBounds
  | fuelExhausted
  deriving DecidableEq, Repr

/-- Conversion of a length to the 32-bit signed `int` of `int n = x.size()`:
reduction modulo `2^32` into `[-2^31, 2^31)`. -/
def toInt32 (k : Int) : Int := (2 ^ 31 + k) % 2 ^ 32 - 2 ^ 31

/-- Modelled from the spec: the constructor `NumericVector result(n)` of the host
runtime, which is not in the repository: a new vector of `n` zeros.  Failure
to allocate is the one failure the spec names; the runtime's allocator fails
for a negative length. -/
def alloc {α : Type} (ops : Prim α) (n : Int) : Except Error (List α) :=
  if n < 0 then .error .negativeLength else .ok (List.replicate n.toNat ops.zero)

/-- The read `v[i]`. -/
def read {α : Type} (v : List α) (i : Int) : Except Error α :=
  if 0 ≤ i then
    match v[i.toNat]? with
    | some a => .ok a
    | none => .error .indexOutOfBounds
  else .error .indexOutOfBounds

/-- The write `v[i] = a`. -/
def write {α : Type} (v : List α) (i : Int) (a : α) : Except Error (List α) :=
  if 0 ≤ i ∧ i.toNat < v.length then .ok (v.set i.toNat a)
  else .error .indexOutOfBounds

/-- The state of the loop: the argument, the vector being filled, the counter. -/
structure State (α : Type) where
  x : List α
  result : List α
  i : Int

/-- The value `exp(a) + 3 * sin(b)` of the right-hand side, for the two reads
`a` and `b` of `x[i]`. -/
def rhs {α : Type} (ops : Prim α) (a b : α) : α :=
  ops.add (ops.exp a) (ops.mul (ops.ofInt 3) (ops.sin b))

/-- One iteration: `result[i] = exp(x[i]) + 3 * sin(x[i]);` followed by `++i`. -/
def body {α : Type} (ops : Prim α) (s : State α) : Except Error (State α) :=
  match read s.x s.i with
  | .error e => .error e
  | .ok a =>
    match read s.x s.i with
    | .error e => .error e
    | .ok b =>
      match write s.result s.i (rhs ops a b) with
      | .error e => .error e
      | .ok r => .ok { x := s.x, result := r, i := s.i + 1 }

/-- The loop `for (...; i < n; ++i)`, with a bound on the number of iterations. -/
def loop {α : Type} (ops : Prim α) (n : Int) : Nat → State α → Except Error (State α)
  | 0, s => if s.i < n then .error .fuelExhausted else .ok s
  | fuel + 1, s =>
    if s.i < n then
      match body ops s with
      | .error e => .error e
      | .ok s' => loop ops n fuel s'
    else .ok s

/-- The whole call, up to the `return`: the final state of the loop. -/
def run {α : Type} (ops : Prim α) (x : List α) : Except Error (State α) :=
  let n := toInt32 x.length
  match alloc ops n with
  | .error e => .error e
  | .ok result => loop ops n n.toNat { x := x, result := result, i := 0 }

/-- The function `fuse`: the vector `result` of the final state. -/
def fuse {α : Type} (ops : Prim α) (x : List α) : Except Error (List α) :=
  match run ops x with
  | .error e => .error e
  | .ok s => .ok s.result

/-- The element-wise function `a ↦ exp(a) + 3 * sin(a)`. -/
def term {α : Type} (ops : Prim α) (a : α) : α := rhs ops a a

/-- The primitives read as the exact real functions. -/
noncomputable def realOps : Prim ℝ where
  exp := Real.exp
  sin := Real.sin
  add := fun a b => a + b
  mul := fun a b => a * b
  ofInt := fun k => (k : ℝ)
  zero := 0

/-- A small computable instance, on the integers, used to run the embedding:
`exp` is doubling and `sin` is negation. -/
def testOps : Prim Int where
  exp := fun a => 2 * a
  sin := fun a => -a
  add := fun a b => a + b
  mul := fun a b => a * b
  ofInt := fun k => k
  zero := 0

/-- Values of a small model of the doubles with their two special values: the
finite values (here the integers), `+infinity` and `NaN`. -/
inductive Ext where
  | fin (k : Int)
  | inf
  | nan
  deriving DecidableEq, Repr

/-- A small computable instance with special values, used to run the overflow and
`NaN` cases: on finite values `exp` is doubling, overflowing to `inf` above
`709`, and `sin` is negation; `NaN` is absorbing and `inf + finite = inf`. -/
def extOps : Prim Ext where
  exp := fun a =>
    match a with
    | .fin k => if 709 < k then .inf else .fin (2 * k)
    | .inf => .inf
    | .nan => .nan
  sin := fun a =>
    match a with
    | .fin k => .fin (-k)
    | .inf => .nan
    | .nan => .nan
  add := fun a b =>
    match a, b with
    | .fin m, .fin n => .fin (m + n)
    | .nan, _ => .nan
    | _, .nan => .nan
    | _, _ => .inf
  mul := fun a b =>
    match a, b with
    | .fin m, .fin n => .fin (m * n)
    | .nan, _ => .nan
    | _, .nan => .nan
    | _, _ => .inf
  ofInt := fun k => .fin k
  zero := .fin 0

/-- The sequence `x` rearranged by the list of indices `p`: its elements at the
indices of `p`, in the order of `p`. -/
def rearrange {α : Type} (p : List Nat) (x : List α) : List α :=
  p.filterMap (fun k => x[k]?)

/-- The state after `k` iterations of the loop `for (...; i < n; ++i)`: the test
and the body `k` times, stopping early when the test fails. -/
def iterate {α : Type} (ops : Prim α) (n : Int) : Nat → State α → Except Error (State α)
  | 0, s => .ok s
  | k + 1, s =>
    if s.i < n then
      match body ops s with
      | .error e => .error e
      | .ok s' => iterate ops n k s'
    else .ok s

/-- The statement `result[k] = exp(x[k]) + 3 * sin(x[k]);` of the loop body
performed for the indices `k` of `p`, in the order of `p`, on the vector `r`. -/
def writesInOrder {α : Type} (ops : Prim α) (x : List α) : List Nat → List α → Except Error (List α)
  | [], r => .ok r
  | k :: p, r =>
    match body ops { x := x, result := r, i := (k : Int) } with
    | .error e => .error e
    | .ok s => writesInOrder ops x p s.result

/-- The vectors of the host runtime, by identity: the vector of handle `k` is
`objs[k]`.  Two `NumericVector` values alias when they hold the same handle. -/
structure Heap (α : Type) where
  objs : List (List α)

/-- Modelled from the spec: the constructor `NumericVector result(n)` in a heap,
"a newly allocated ordered sequence": a new vector of `n` zeros, under a handle
that names no vector of the heap so far. -/
def allocIn {α : Type} (ops : Prim α) (h : Heap α) (n : Int) : Except Error (Heap α × Nat) :=
  match alloc ops n with
  | .error e => .error e
  | .ok v => .ok ({ objs := h.objs ++ [v] }, h.objs.length)

/-- The read `v[i]` through the handle `v`; a handle that names no vector is
reported like an index out of bounds. -/
def readIn {α : Type} (h : Heap α) (v : Nat) (i : Int) : Except Error α :=
  match h.objs[v]? with
  | none => .error .indexOutOfBounds
  | some l => read l i

/-- The write `v[i] = a` through the handle `v`. -/
def writeIn {α : Type} (h : Heap α) (v : Nat) (i : Int) (a : α) : Except Error (Heap α) :=
  match h.objs[v]? with
  | none => .error .indexOutOfBounds
  | some l =>
    match write l i a with
    | .error e => .error e
    | .ok l' => .ok { objs := h.objs.set v l' }

/-- The state of the loop over a heap: the heap, the handles of the argument and
of the vector being filled, the counter. -/
structure HeapState (α : Type) where
  heap : Heap α
  x : Nat
  result : Nat
  i : Int

/-- One iteration over a heap: `result[i] = exp(x[i]) + 3 * sin(x[i]);` and `++i`. -/
def bodyIn {α : Type} (ops : Prim α) (s : HeapState α) : Except Error (HeapState α) :=
  match readIn s.heap s.x s.i with
  | .error e => .error e
  | .ok a =>
    match readIn s.heap s.x s.i with
    | .error e => .error e
    | .ok b =>
      match writeIn s.heap s.result s.i (rhs ops a b) with
      | .error e => .error e
      | .ok h => .ok { heap := h, x := s.x, result := s.result, i := s.i + 1 }

/-- The loop over a heap, with a bound on the number of iterations. -/
def loopIn {α : Type} (ops : Prim α) (n : Int) : Nat → HeapState α → Except Error (HeapState α)
  | 0, s => if s.i < n then .error .fuelExhausted else .ok s
  | fuel + 1, s =>
    if s.i < n then
      match bodyIn ops s with
      | .error e => .error e
      | .ok s' => loopIn ops n fuel s'
    else .ok s

/-- The function `fuse` over a heap: called with the handle `x` of its argument,
it returns the heap after the call and the handle of the vector it returns. -/
def fuseIn {α : Type} (ops : Prim α) (h : Heap α) (x : Nat) : Except Error (Heap α × Nat) :=
  match h.objs[x]? with
  | none => .error .indexOutOfBounds
  | some vx =>
    let n := toInt32 vx.length
    match allocIn ops h n with
    | .error e => .error e
    | .ok (h1, r) =>
      match loopIn ops n n.toNat { heap := h1, x := x, result := r, i := 0 } with
      | .error e => .error e
      | .ok s => .ok (s.heap, s.result)

example : fuse testOps [1, 2, 3] = .ok [-1, -2, -3] := by rfl
example : writesInOrder testOps [1, 2, 3] [2, 0, 1] [0, 0, 0] = .ok [-1, -2, -3] := by rfl
example : (iterate testOps 3 2 { x := [1, 2, 3], result := [0, 0, 0], i := 0 }).map (·.result) =
    .ok [-1, -2, 0] := by rfl
example : (fuseIn testOps { objs := [[1, 2]] } 0).map (fun q => (q.1.objs, q.2)) =
    .ok ([[1, 2], [-1, -2]], 1) := by rfl
example : fuse testOps [] = .ok [] := by rfl
example : fuse extOps [.fin 1, .fin 1000, .nan] = .ok [.fin (-1), .inf, .nan] := by rfl
example : toInt32 (2^32+1) = 1 := by unfold toInt32; decide
example : toInt32 (2^31) = -2^31 := by unfold toInt32; decide

/-! ## The 32-bit conversion -/

theorem toInt32_of_lt (k : Nat) (h : k < 2 ^ 31) : toInt32 (k : Int) = (k : Int) := by
  unfold toInt32
  omega

theorem toInt32_le (k : Nat) : toInt32 (k : Int) ≤ (k : Int) := by
  unfold toInt32
  omega

theorem toInt32_eq_iff (k : Nat) : toInt32 (k : Int) = (k : Int) ↔ k < 2 ^ 31 := by
  unfold toInt32
  omega

/-! ## One iteration -/

theorem read_eq {α : Type} (v : List α) (k : Nat) (h : k < v.length) :
    read v (k : Int) = .ok (v.get ⟨k, h⟩) := by
  simp [read, List.getElem?_eq_getElem h]

theorem write_eq {α : Type} (v : List α) (k : Nat) (a : α) (h : k < v.length) :
    write v (k : Int) a = .ok (v.set k a) := by
  simp [write, h]

theorem body_eq {α : Type} (ops : Prim α) (x r : List α) (k : Nat)
    (hx : k < x.length) (hr : k < r.length) :
    body ops { x := x, result := r, i := (k : Int) } =
      .ok { x := x, result := r.set k (term ops (x.get ⟨k, hx⟩)), i := ((k + 1 : Nat) : Int) } := by
  simp [body, read_eq x k hx, write_eq r k _ hr, term]

/-! ## The loop -/

theorem take_succ_set {α : Type} (r : List α) (k : Nat) (v : α) (h : k < r.length) :
    (r.set k v).take (k + 1) = r.take k ++ [v] := by
  apply List.ext_getElem?
  intro j
  simp only [List.getElem?_take, List.getElem?_set, List.getElem?_append, List.length_take]
  have : min k r.length = k := by omega
  rw [this]
  by_cases h1 : j < k
  · have : ¬ k = j := by omega
    have : j < k + 1 := by omega
    simp [*]
  · by_cases h2 : j = k
    · subst h2; simp [h]
    · have : ¬ k = j := by omega
      have : ¬ j < k + 1 := by omega
      have : 1 ≤ j - k := by omega
      simp [*]

/-- From counter `k`, with `m` iterations left to reach `n`, the loop ends in the
state whose counter is `n` and whose `result` keeps the first `k` elements and
holds `term` of the elements `k..n-1` of `x`. -/
theorem loop_eq {α : Type} (ops : Prim α) (x : List α) (n : Nat) (hn : n ≤ x.length) :
    ∀ (m k : Nat) (r : List α), k + m = n → r.length = n →
      loop ops (n : Int) m { x := x, result := r, i := (k : Int) } =
        .ok { x := x, result := r.take k ++ ((x.take n).drop k).map (term ops), i := (n : Int) } := by
  intro m
  induction m with
  | zero =>
    intro k r hk hr
    have hkn : k = n := by omega
    subst hkn
    have h1 : r.take k = r := List.take_of_length_le (by omega)
    have h2 : (x.take k).drop k = [] := List.drop_of_length_le (by simp)
    simp [loop, h1, h2]
  | succ m ih =>
    intro k r hk hr
    have hkn : k < n := by omega
    have hx : k < x.length := by omega
    have hr' : k < r.length := by omega
    have hlt : (k : Int) < (n : Int) := by omega
    have hd : (x.take n).drop k = x.get ⟨k, hx⟩ :: (x.take n).drop (k + 1) := by
      rw [List.drop_eq_getElem_cons (by simp; omega)]
      simp
    simp only [loop, hlt, if_true, body_eq ops x r k hx hr']
    rw [ih (k + 1) _ (by omega) (by simpa using hr), take_succ_set r k _ hr', hd]
    simp

theorem run_eq {α : Type} (ops : Prim α) (x : List α) :
    run ops x =
      if toInt32 x.length < 0 then .error .negativeLength
      else .ok { x := x, result := (x.take (toInt32 x.length).toNat).map (term ops),
                 i := toInt32 x.length } := by
  have hle := toInt32_le x.length
  unfold run alloc
  generalize toInt32 (x.length : Int) = n at hle
  by_cases h : n < 0
  · simp only [h, if_true]
  · simp only [h, if_false]
    have h0 : 0 ≤ n := not_lt.mp h
    obtain ⟨N, rfl⟩ : ∃ N : Nat, n = (N : Int) := ⟨n.toNat, (Int.toNat_of_nonneg h0).symm⟩
    have hnl : N ≤ x.length := by exact_mod_cast hle
    have := loop_eq ops x N hnl N 0 (List.replicate N ops.zero) (by omega) (by simp)
    simp only [Nat.cast_zero] at this
    simp only [Int.toNat_ofNat, this]
    simp

/-- The result of `fuse` on every input: with `n` the 32-bit value of the length,
an error when `n` is negative and otherwise `term` of the first `n` elements. -/
theorem fuse_eq {α : Type} (ops : Prim α) (x : List α) :
    fuse ops x =
      if toInt32 x.length < 0 then .error .negativeLength
      else .ok ((x.take (toInt32 x.length).toNat).map (term ops)) := by
  unfold fuse
  rw [run_eq]
  by_cases h : toInt32 (x.length : Int) < 0
  · simp only [h, if_true]
  · simp only [h, if_false]

/-- On an input of length below `2^31`, `fuse` is the element-wise map. -/
theorem fuse_eq_map {α : Type} (ops : Prim α) (x : List α) (h : x.length < 2 ^ 31) :
    fuse ops x = .ok (x.map (term ops)) := by
  rw [fuse_eq, toInt32_of_lt x.length h]
  simp

/-! ## Inputs of equal elements and the real primitives -/

theorem fuse_replicate {α : Type} (ops : Prim α) (a : α) (N : Nat) :
    fuse ops (List.replicate N a) =
      if toInt32 (N : Int) < 0 then .error .negativeLength
      else .ok (List.replicate (min (toInt32 (N : Int)).toNat N) (term ops a)) := by
  rw [fuse_eq, List.length_replicate, List.take_replicate, List.map_replicate]

theorem toInt32_long : toInt32 ((2 ^ 32 + 1 : Nat) : Int) = 1 := by
  unfold toInt32
  decide

theorem toInt32_half : toInt32 ((2 ^ 31 : Nat) : Int) = -2 ^ 31 := by
  unfold toInt32
  decide

theorem fuse_replicate_long {α : Type} (ops : Prim α) (a : α) :
    fuse ops (List.replicate (2 ^ 32 + 1) a) = .ok [term ops a] := by
  rw [fuse_replicate, toInt32_long]
  rfl

theorem exp_one_near : |Real.exp 1 - 2.718281828459045| ≤ 1 / 10 ^ 14 := by
  have h := Real.exp_bound (x := 1) (by norm_num) (n := 18) (by norm_num)
  simp only [Finset.sum_range_succ, Finset.sum_range_zero, Nat.factorial] at h
  norm_num at h
  rw [abs_le] at h ⊢
  constructor <;> linarith [h.1, h.2]

theorem sin_one_near : |Real.sin 1 - 0.8414709848078965| ≤ 1 / 10 ^ 14 := by
  have h := Complex.exp_bound (x := Complex.I) (by simp) (n := 18) (by norm_num)
  have him := (Complex.abs_im_le_abs _).trans h
  have hs : (Complex.exp Complex.I).im = Real.sin 1 := by
    have := Complex.exp_ofReal_mul_I_im 1
    simpa using this
  simp only [Complex.sub_im, hs] at him
  simp only [Finset.sum_range_succ, Finset.sum_range_zero, Nat.factorial] at him
  norm_num [pow_succ, Complex.div_im, Complex.div_re] at him
  rw [abs_le] at him ⊢
  constructor <;> linarith [him.1, him.2]

theorem term_real (a : ℝ) : term realOps a = Real.exp a + 3 * Real.sin a := by
  simp [term, rhs, realOps]

theorem fuse_real_one : fuse realOps [1] = .ok [Real.exp 1 + 3 * Real.sin 1] := by
  rw [fuse_eq_map realOps [1] (by simp)]
  simp [term_real]

theorem term_real_one_bounds :
    5.2426947828826 ≤ Real.exp 1 + 3 * Real.sin 1 ∧
      Real.exp 1 + 3 * Real.sin 1 ≤ 5.2426947828828 := by
  obtain ⟨he1, he2⟩ := abs_le.mp exp_one_near
  obtain ⟨hs1, hs2⟩ := abs_le.mp sin_one_near
  constructor <;> norm_num at he1 he2 hs1 hs2 ⊢ <;> linarith

/-! ## The claims -/

/-- C1, evaluated at an input of `2^32 + 1` equal elements: the 32-bit length is
`1`, the call returns a one-element result, and index `1`, which is an index of
the input, has no element in the result. -/
theorem fuse_index_absent_on_long_input {α : Type} (ops : Prim α) (a : α) :
    1 < (List.replicate (2 ^ 32 + 1) a).length ∧
      ∃ r, fuse ops (List.replicate (2 ^ 32 + 1) a) = .ok r ∧ r[1]? = none := by
  refine ⟨?_, [term ops a], fuse_replicate_long ops a, rfl⟩
  rw [List.length_replicate]
  decide

/-- C2, evaluated at an input of `2^32 + 1` equal elements: the result has one
element, which is not the length of the input. -/
theorem fuse_length_on_long_input {α : Type} (ops : Prim α) (a : α) :
    ∃ r, fuse ops (List.replicate (2 ^ 32 + 1) a) = .ok r ∧ r.length = 1 ∧
      r.length ≠ (List.replicate (2 ^ 32 + 1) a).length := by
  refine ⟨[term ops a], fuse_replicate_long ops a, rfl, ?_⟩
  rw [List.length_replicate]
  simp

/-- C3 as stated fails: with the exact real `exp` and `sin`, the element of
`fuse([1.0])` is not within relative error `1e-12` of `5.242694779382134`. -/
theorem fuse_one_not_near_spec_value :
    ¬ ∃ v : ℝ, fuse realOps [1] = .ok [v] ∧
        |v - (2.718281828459045 + 3 * 0.8414709848078965)| ≤ 1 / 10 ^ 12 * |v| ∧
        |v - 5.242694779382134| ≤ 1 / 10 ^ 12 * |v| := by
  rintro ⟨v, hv, -, h⟩
  rw [fuse_real_one] at hv
  have hv' : Real.exp 1 + 3 * Real.sin 1 = v := by
    simpa using hv
  subst hv'
  obtain ⟨hlo, hhi⟩ := term_real_one_bounds
  have hpos : 0 ≤ Real.exp 1 + 3 * Real.sin 1 := by linarith
  rw [abs_of_nonneg hpos] at h
  have h2 := (abs_le.mp h).2
  norm_num at hlo hhi h2
  linarith

/-- C3 as amended: with the exact real `exp` and `sin`, `fuse([1.0])` is a
one-element sequence whose element is within relative error `1e-12` of
`2.718281828459045 + 3*0.8414709848078965` and of `5.242694782882735`. -/
theorem fuse_one_near_value :
    ∃ v : ℝ, fuse realOps [1] = .ok [v] ∧
        |v - (2.718281828459045 + 3 * 0.8414709848078965)| ≤ 1 / 10 ^ 12 * |v| ∧
        |v - 5.242694782882735| ≤ 1 / 10 ^ 12 * |v| := by
  refine ⟨_, fuse_real_one, ?_, ?_⟩ <;>
  · obtain ⟨hlo, hhi⟩ := term_real_one_bounds
    have hpos : 0 ≤ Real.exp 1 + 3 * Real.sin 1 := by linarith
    rw [abs_of_nonneg hpos, abs_le]
    norm_num at hlo hhi ⊢
    constructor <;> linarith

/-- C4: when `exp(0) = 1`, `sin(0) = 0`, `3 * 0 = 0` and `1 + 0 = 1` hold for the
primitives, `fuse([0.0])` is the one-element sequence `[1.0]`. -/
theorem fuse_zero {α : Type} (ops : Prim α) (one : α)
    (hexp : ops.exp ops.zero = one) (hsin : ops.sin ops.zero = ops.zero)
    (hmul : ops.mul (ops.ofInt 3) ops.zero = ops.zero) (hadd : ops.add one ops.zero = one) :
    fuse ops [ops.zero] = .ok [one] := by
  rw [fuse_eq_map ops [ops.zero] (by simp)]
  simp [term, rhs, hexp, hsin, hmul, hadd]

/-- C4 at the real primitives: `fuse([0]) = [1]`. -/
theorem fuse_zero_witness : fuse realOps [(0 : ℝ)] = .ok [(1 : ℝ)] :=
  fuse_zero realOps 1 (by simp [realOps]) (by simp [realOps]) (by simp [realOps])
    (by simp [realOps])

/-- C5: on the empty input `fuse` returns the empty sequence, and the loop
returns its initial state, counter `0` included, whatever its iteration bound:
the body is not executed. -/
theorem fuse_nil {α : Type} (ops : Prim α) :
    fuse ops [] = .ok [] ∧
      ∀ fuel : Nat,
        loop ops (toInt32 (([] : List α).length : Int)) fuel { x := [], result := [], i := 0 } =
          .ok { x := [], result := [], i := 0 } := by
  refine ⟨fuse_eq_map ops [] (by simp), ?_⟩
  intro fuel
  have h : toInt32 ((([] : List α).length : Nat) : Int) = 0 := by
    simp only [List.length_nil]
    decide
  rw [h]
  cases fuel <;> simp [loop]

/-- C6, evaluated at an input of `2^31` equal elements: the 32-bit length is
`-2^31`, the vector `result` cannot be created and the call ends in an error. -/
theorem fuse_error_on_long_input {α : Type} (ops : Prim α) (a : α) :
    fuse ops (List.replicate (2 ^ 31) a) = .error .negativeLength := by
  rw [fuse_replicate, toInt32_half]
  rfl

/-- C7: for inputs of the same length that agree at index `i`, the results agree
at index `i` (the calls end alike, and element `i` of the two results is the
same), whatever the other elements are; this holds for every index, the indices
below the length included. -/
theorem fuse_elem_depends_on_own_input {α : Type} (ops : Prim α) (X Y : List α) (i : Nat)
    (hlen : X.length = Y.length) (hxy : X[i]? = Y[i]?) :
    Except.map (fun r : List α => r[i]?) (fuse ops X) =
      Except.map (fun r : List α => r[i]?) (fuse ops Y) := by
  rw [fuse_eq, fuse_eq, ← hlen]
  by_cases h : toInt32 (X.length : Int) < 0
  · rw [if_pos h, if_pos h]
  · rw [if_neg h, if_neg h]
    simp only [Except.map, List.getElem?_map, List.getElem?_take, hxy]

/-- C7 at `X = [0, 1]`, `Y = [0, 2]` and index `0`. -/
theorem fuse_elem_depends_on_own_input_witness :
    Except.map (fun r : List Int => r[0]?) (fuse testOps [0, 1]) =
      Except.map (fun r : List Int => r[0]?) (fuse testOps [0, 2]) :=
  fuse_elem_depends_on_own_input testOps [0, 1] [0, 2] 0 rfl rfl

theorem write_ok {α : Type} (v r : List α) (i : Int) (a : α) (h : write v i a = .ok r) :
    r = v.set i.toNat a := by
  unfold write at h
  split at h
  · cases h; rfl
  · cases h

theorem body_ok {α : Type} (ops : Prim α) (s s' : State α) (h : body ops s = .ok s') :
    s'.x = s.x ∧ s'.i = s.i + 1 ∧ ∃ v, s'.result = s.result.set s.i.toNat v := by
  unfold body at h
  split at h
  · cases h
  · split at h
    · cases h
    · split at h
      · cases h
      · rename_i r hw
        cases h
        exact ⟨rfl, rfl, _, write_ok _ _ _ _ hw⟩

theorem loop_ok_x {α : Type} (ops : Prim α) (n : Int) :
    ∀ (fuel : Nat) (s s' : State α), loop ops n fuel s = .ok s' → s'.x = s.x := by
  intro fuel
  induction fuel with
  | zero =>
    intro s s' h
    unfold loop at h
    split at h
    · cases h
    · cases h; rfl
  | succ fuel ih =>
    intro s s' h
    unfold loop at h
    split at h
    · split at h
      · cases h
      · rename_i s1 hb
        rw [ih s1 s' h, (body_ok ops s s1 hb).1]
    · cases h; rfl

/-- C8: an iteration leaves `x` unchanged and changes `result` at index `i`
only, keeping its length; the loop and the whole call leave `x` unchanged; and
on an input of length below `2^31` the call does return, in a state whose `x`
is the input. -/
theorem fuse_input_unmodified {α : Type} (ops : Prim α) :
    (∀ s s' : State α, body ops s = .ok s' →
        s'.x = s.x ∧ s'.result.length = s.result.length ∧
          ∀ j : Nat, j ≠ s.i.toNat → s'.result[j]? = s.result[j]?) ∧
      (∀ (n : Int) (fuel : Nat) (s s' : State α), loop ops n fuel s = .ok s' → s'.x = s.x) ∧
      (∀ (x : List α) (s : State α), run ops x = .ok s → s.x = x) ∧
      (∀ x : List α, x.length < 2 ^ 31 → ∃ s, run ops x = .ok s ∧ s.x = x) := by
  refine ⟨?_, loop_ok_x ops, ?_, ?_⟩
  · intro s s' h
    obtain ⟨hx, -, v, hr⟩ := body_ok ops s s' h
    refine ⟨hx, by rw [hr, List.length_set], ?_⟩
    intro j hj
    rw [hr, List.getElem?_set]
    have : ¬ s.i.toNat = j := fun e => hj e.symm
    simp [this]
  · intro x s h
    rw [run_eq] at h
    split at h
    · cases h
    · cases h; rfl
  · intro x hx
    refine ⟨{ x := x, result := (x.take ((x.length : Int)).toNat).map (term ops),
              i := (x.length : Int) }, ?_, rfl⟩
    rw [run_eq, toInt32_of_lt x.length hx, if_neg (by omega)]

/-- C8 at the input `[1, 2]`: the call returns, and the input is the `x` of the
final state. -/
theorem fuse_input_unmodified_witness :
    ∃ s, run testOps [1, 2] = .ok s ∧ s.x = [1, 2] :=
  (fuse_input_unmodified testOps).2.2.2 [1, 2] (by decide)

theorem take_one_replicate_append {α : Type} (b : α) (l : List α) (N : Nat) (h : 0 < N) :
    (List.replicate N b ++ l).take 1 = [b] := by
  cases N with
  | zero => omega
  | succ N => rfl

theorem fuse_cons_replicate_long {α : Type} (ops : Prim α) (a b : α) :
    fuse ops (a :: List.replicate (2 ^ 32) b) = .ok [term ops a] := by
  rw [fuse_eq, List.length_cons, List.length_replicate, toInt32_long]
  rfl

theorem fuse_reverse_cons_replicate_long {α : Type} (ops : Prim α) (a b : α) :
    fuse ops (List.reverse (a :: List.replicate (2 ^ 32) b)) = .ok [term ops b] := by
  rw [fuse_eq, List.length_reverse, List.length_cons, List.length_replicate, toInt32_long,
    List.reverse_cons, List.reverse_replicate]
  have h1 : (1 : Int).toNat = 1 := rfl
  rw [if_neg (by decide), h1, take_one_replicate_append b [a] (2 ^ 32) (by decide)]
  rfl

/-- C10, evaluated at the input `1` followed by `2^32` zeros, with the exact real
`exp` and `sin`: `fuse` of the reversed input is `[1]`, the reversed result of
`fuse` is `[exp 1 + 3 sin 1]`, and the two differ. -/
theorem fuse_reverse_on_long_input :
    fuse realOps (List.reverse ((1 : ℝ) :: List.replicate (2 ^ 32) (0 : ℝ))) = .ok [1] ∧
      Except.map List.reverse (fuse realOps ((1 : ℝ) :: List.replicate (2 ^ 32) (0 : ℝ))) =
        .ok [Real.exp 1 + 3 * Real.sin 1] ∧
      fuse realOps (List.reverse ((1 : ℝ) :: List.replicate (2 ^ 32) (0 : ℝ))) ≠
        Except.map List.reverse (fuse realOps ((1 : ℝ) :: List.replicate (2 ^ 32) (0 : ℝ))) := by
  have hr : fuse realOps (List.reverse ((1 : ℝ) :: List.replicate (2 ^ 32) (0 : ℝ))) = .ok [1] := by
    rw [fuse_reverse_cons_replicate_long, term_real]
    simp
  have hf : Except.map List.reverse (fuse realOps ((1 : ℝ) :: List.replicate (2 ^ 32) (0 : ℝ))) =
      .ok [Real.exp 1 + 3 * Real.sin 1] := by
    rw [fuse_cons_replicate_long, term_real]
    rfl
  refine ⟨hr, hf, ?_⟩
  rw [hr, hf]
  intro h
  have h1 : (1 : ℝ) = Real.exp 1 + 3 * Real.sin 1 := by
    simpa using h
  have := term_real_one_bounds.1
  norm_num at this
  linarith

/-! ## Inputs whose length fits the 32-bit counter -/

/-- On an input of length at most `2^31 - 1` the call returns a result of the
length of the input whose element at every index `i` of the input is
`exp(X[i]) + 3 * sin(X[i])`. -/
theorem fuse_elementwise_of_short {α : Type} (ops : Prim α) (X : List α)
    (h : X.length < 2 ^ 31) :
    ∃ r, fuse ops X = .ok r ∧ r.length = X.length ∧
      ∀ i (hi : i < X.length), r[i]? = some (term ops (X.get ⟨i, hi⟩)) := by
  refine ⟨X.map (term ops), fuse_eq_map ops X h, List.length_map _ _, ?_⟩
  intro i hi
  simp [List.getElem?_map, List.getElem?_eq_getElem hi]

/-- The short-input statement at the input `[1, 2, 3]`. -/
theorem fuse_elementwise_of_short_witness :
    ∃ r, fuse testOps [1, 2, 3] = .ok r ∧ r.length = [1, 2, 3].length ∧
      ∀ i (hi : i < [1, 2, 3].length), r[i]? = some (term testOps ([1, 2, 3].get ⟨i, hi⟩)) :=
  fuse_elementwise_of_short testOps [1, 2, 3] (by decide)

/-- No read `x[i]` and no write `result[i]` of the loop is out of bounds, and the
iteration bound is never reached, on any input: the only way the call ends
without a result is the negative 32-bit length, and otherwise the counter
ends at the 32-bit length. -/
theorem fuse_indices_in_bounds {α : Type} (ops : Prim α) (X : List α) :
    fuse ops X ≠ .error .indexOutOfBounds ∧ fuse ops X ≠ .error .fuelExhausted ∧
      run ops X ≠ .error .indexOutOfBounds ∧ run ops X ≠ .error .fuelExhausted ∧
      (0 ≤ toInt32 (X.length : Int) → ∃ s, run ops X = .ok s ∧ s.i = toInt32 (X.length : Int)) := by
  rw [fuse_eq, run_eq]
  by_cases h : toInt32 (X.length : Int) < 0
  · rw [if_pos h, if_pos h]
    refine ⟨by simp, by simp, by simp, by simp, fun h0 => absurd h (not_lt.mpr h0)⟩
  · rw [if_neg h, if_neg h]
    exact ⟨by simp, by simp, by simp, by simp, fun _ => ⟨_, rfl, rfl⟩⟩

theorem rearrange_map {α β : Type} (f : α → β) (p : List Nat) (x : List α) :
    rearrange p (x.map f) = (rearrange p x).map f := by
  unfold rearrange
  rw [List.map_filterMap]
  congr 1
  funext k
  rw [List.getElem?_map]

theorem rearrange_length_le {α : Type} (p : List Nat) (x : List α) :
    (rearrange p x).length ≤ p.length :=
  List.length_filterMap_le _ _

/-- On an input of length at most `2^31 - 1`, `fuse` commutes with every
rearrangement of the input by a list of at most `2^31 - 1` indices, and so with
every permutation of its indices and with reversal. -/
theorem fuse_rearrange_of_short {α : Type} (ops : Prim α) (X : List α) (p : List Nat)
    (h : X.length < 2 ^ 31) (hp : p.length < 2 ^ 31) :
    fuse ops (rearrange p X) = Except.map (rearrange p) (fuse ops X) ∧
      fuse ops X.reverse = Except.map List.reverse (fuse ops X) := by
  have hl := rearrange_length_le p X
  rw [fuse_eq_map ops X h, fuse_eq_map ops _ (by omega),
    fuse_eq_map ops X.reverse (by rwa [List.length_reverse])]
  simp [Except.map, rearrange_map, List.map_reverse]

/-- The rearrangement statement at the input `[1, 2, 3]` and the permutation
`[2, 0, 1]` of its indices. -/
theorem fuse_rearrange_of_short_witness :
    fuse testOps (rearrange [2, 0, 1] [1, 2, 3]) =
        Except.map (rearrange [2, 0, 1]) (fuse testOps [1, 2, 3]) ∧
      fuse testOps [1, 2, 3].reverse = Except.map List.reverse (fuse testOps [1, 2, 3]) :=
  fuse_rearrange_of_short testOps [1, 2, 3] [2, 0, 1] (by decide) (by decide)

example : rearrange [2, 0, 1] [10, 20, 30] = [30, 10, 20] := by decide
example : fuse testOps (rearrange [2, 0, 1] [1, 2, 3]) = .ok [-3, -1, -2] := by rfl

/-! ## The loop, iteration by iteration -/

theorem iterate_succ {α : Type} (ops : Prim α) (n : Int) :
    ∀ (k : Nat) (s : State α),
      iterate ops n (k + 1) s =
        match iterate ops n k s with
        | .error e => .error e
        | .ok s' => if s'.i < n then body ops s' else .ok s' := by
  intro k
  induction k with
  | zero =>
    intro s
    by_cases h : s.i < n
    · cases hb : body ops s <;> simp [iterate, h, hb]
    · simp [iterate, h]
  | succ k ih =>
    intro s
    by_cases h : s.i < n
    · cases hb : body ops s with
      | error e => simp [iterate, h, hb]
      | ok s1 =>
        have e1 : iterate ops n (k + 1 + 1) s = iterate ops n (k + 1) s1 := by
          rw [iterate]; simp [h, hb]
        have e2 : iterate ops n (k + 1) s = iterate ops n k s1 := by
          rw [iterate]; simp [h, hb]
        rw [e1, e2, ih s1]
    · simp [iterate, h]

theorem loop_iterate {α : Type} (ops : Prim α) (n : Int) :
    ∀ (fuel : Nat) (s : State α),
      loop ops n fuel s =
        match iterate ops n fuel s with
        | .error e => .error e
        | .ok s' => if s'.i < n then .error .fuelExhausted else .ok s' := by
  intro fuel
  induction fuel with
  | zero => intro s; simp [loop, iterate]
  | succ fuel ih =>
    intro s
    by_cases h : s.i < n
    · cases hb : body ops s with
      | error e => simp [loop, iterate, h, hb]
      | ok s1 =>
        have e1 : loop ops n (fuel + 1) s = loop ops n fuel s1 := by
          rw [loop]; simp [h, hb]
        have e2 : iterate ops n (fuel + 1) s = iterate ops n fuel s1 := by
          rw [iterate]; simp [h, hb]
        rw [e1, e2, ih s1]
    · simp [loop, iterate, h]

/-- After `k ≤ N` iterations of the loop with bound `N ≤ length(x)` from the
zero-filled vector of length `N`, the counter is `k`, the vector has length
`N`, holds `term` of `x` below `k` and zero from `k` on. -/
theorem iterate_inv {α : Type} (ops : Prim α) (x : List α) (N : Nat) (hN : N ≤ x.length) :
    ∀ k : Nat, k ≤ N →
      ∃ r, iterate ops (N : Int) k
            { x := x, result := List.replicate N ops.zero, i := 0 } =
          .ok { x := x, result := r, i := (k : Int) } ∧
        r.length = N ∧
        (∀ j (hj : j < x.length), j < k → r[j]? = some (term ops (x.get ⟨j, hj⟩))) ∧
        (∀ j, k ≤ j → j < N → r[j]? = some ops.zero) := by
  intro k
  induction k with
  | zero =>
    intro _
    refine ⟨_, rfl, by simp, ?_, ?_⟩
    · intro j _ hj; omega
    · intro j _ hj
      simp [List.getElem?_replicate, hj]
  | succ k ih =>
    intro hk
    obtain ⟨r, hr, hlen, hlo, hhi⟩ := ih (by omega)
    have hkx : k < x.length := by omega
    have hlt : ((k : Nat) : Int) < (N : Int) := by omega
    refine ⟨r.set k (term ops (x.get ⟨k, hkx⟩)), ?_, by simp [hlen], ?_, ?_⟩
    · rw [iterate_succ, hr]
      simp only [hlt, if_true]
      rw [body_eq ops x r k hkx (by omega)]
    · intro j hj hjk
      rw [List.getElem?_set]
      by_cases e : k = j
      · subst e
        have hkr : k < r.length := by omega
        simp [hkr]
      · simp only [e, if_false]
        exact hlo j hj (by omega)
    · intro j hkj hj
      rw [List.getElem?_set]
      have e : ¬ k = j := by omega
      simp only [e, if_false]
      exact hhi j (by omega) hj

theorem loop_full {α : Type} (ops : Prim α) (x : List α) (N : Nat) (hN : N ≤ x.length) :
    loop ops (N : Int) N { x := x, result := List.replicate N ops.zero, i := 0 } =
      .ok { x := x, result := (x.take N).map (term ops), i := (N : Int) } := by
  have h := loop_eq ops x N hN N 0 (List.replicate N ops.zero) (by omega) (by simp)
  simp only [Nat.cast_zero] at h
  rw [h]
  simp

theorem run_replicate_long {α : Type} (ops : Prim α) (a : α) :
    run ops (List.replicate (2 ^ 32 + 1) a) =
      .ok { x := List.replicate (2 ^ 32 + 1) a, result := [term ops a], i := 1 } := by
  rw [run_eq, List.length_replicate, toInt32_long, List.take_replicate, List.map_replicate]
  rfl

/-- C14, evaluated at an input of `n = 2^32 + 1` equal elements: the loop of
`fuse` ends with the counter at `1`, not at `n`, and with a result of one
element, which is not the element-wise map over the input. -/
theorem fuse_loop_on_long_input {α : Type} (ops : Prim α) (a : α) :
    run ops (List.replicate (2 ^ 32 + 1) a) =
        .ok { x := List.replicate (2 ^ 32 + 1) a, result := [term ops a], i := 1 } ∧
      (1 : Int) ≠ ((List.replicate (2 ^ 32 + 1) a).length : Int) ∧
      ([term ops a] : List α).length ≠ (List.replicate (2 ^ 32 + 1) a).length ∧
      [term ops a] ≠ (List.replicate (2 ^ 32 + 1) a).map (term ops) := by
  have hlen : ([term ops a] : List α).length ≠ (List.replicate (2 ^ 32 + 1) a).length := by
    rw [List.length_replicate]
    simp
  refine ⟨run_replicate_long ops a, ?_, hlen, ?_⟩
  · rw [List.length_replicate]
    norm_num
  · intro h
    apply hlen
    rw [h, List.length_map]

/-- The loop invariant of `fuse`, with `N` the 32-bit value of the length of the
input `X`: after `k ≤ N` iterations from the zero-filled `result` of length `N`
the counter is `k`, `result` has length `N`, `result[j]` is
`exp(X[j]) + 3*sin(X[j])` for `j < k` and `0` for `k ≤ j < N`; fewer than `N`
iterations do not end the loop; `N` iterations end it, with `result` the
element-wise map over the first `N` elements; and this is the run of `fuse`. -/
theorem fuse_loop_invariant {α : Type} (ops : Prim α) (X : List α) (N k : Nat)
    (hN : toInt32 (X.length : Int) = (N : Int)) (hk : k ≤ N) :
    (∃ r, iterate ops (N : Int) k
            { x := X, result := List.replicate N ops.zero, i := 0 } =
          .ok { x := X, result := r, i := (k : Int) } ∧
        r.length = N ∧
        (∀ j (hj : j < X.length), j < k → r[j]? = some (term ops (X.get ⟨j, hj⟩))) ∧
        (∀ j, k ≤ j → j < N → r[j]? = some ops.zero)) ∧
      (k < N →
        loop ops (N : Int) k { x := X, result := List.replicate N ops.zero, i := 0 } =
          .error .fuelExhausted) ∧
      loop ops (N : Int) N { x := X, result := List.replicate N ops.zero, i := 0 } =
        .ok { x := X, result := (X.take N).map (term ops), i := (N : Int) } ∧
      run ops X = loop ops (N : Int) N { x := X, result := List.replicate N ops.zero, i := 0 } ∧
      (X.length < 2 ^ 31 → N = X.length) := by
  have hle : N ≤ X.length := by
    have := toInt32_le X.length
    rw [hN] at this
    exact_mod_cast this
  refine ⟨iterate_inv ops X N hle k hk, ?_, loop_full ops X N hle, ?_, ?_⟩
  · intro hlt
    obtain ⟨r, hr, -⟩ := iterate_inv ops X N hle k hk
    have hlt' : ((k : Nat) : Int) < (N : Int) := by omega
    rw [loop_iterate, hr]
    simp only [hlt', if_true]
  · rw [loop_full ops X N hle, run_eq, hN, if_neg (by omega)]
    simp
  · intro hX
    have := toInt32_of_lt X.length hX
    rw [hN] at this
    exact_mod_cast this

/-- The loop invariant at the input `[1, 2, 3]`, `N = 3`, after `k = 2`
iterations. -/
theorem fuse_loop_invariant_witness :
    (∃ r, iterate testOps ((3 : Nat) : Int) 2
            { x := [1, 2, 3], result := List.replicate 3 testOps.zero, i := 0 } =
          .ok { x := [1, 2, 3], result := r, i := ((2 : Nat) : Int) } ∧
        r.length = 3 ∧
        (∀ j (hj : j < ([1, 2, 3] : List Int).length), j < 2 →
          r[j]? = some (term testOps (([1, 2, 3] : List Int).get ⟨j, hj⟩))) ∧
        (∀ j, 2 ≤ j → j < 3 → r[j]? = some testOps.zero)) :=
  (fuse_loop_invariant testOps [1, 2, 3] 3 2 (by rfl) (by decide)).1

/-! ## The writes in another order -/

theorem writesInOrder_spec {α : Type} (ops : Prim α) (x : List α) :
    ∀ (p : List Nat) (r : List α), (∀ k ∈ p, k < x.length) → (∀ k ∈ p, k < r.length) →
      ∃ r', writesInOrder ops x p r = .ok r' ∧ r'.length = r.length ∧
        ∀ j : Nat, r'[j]? = if j ∈ p then (x[j]?).map (term ops) else r[j]? := by
  intro p
  induction p with
  | nil =>
    intro r _ _
    exact ⟨r, rfl, rfl, fun j => by simp⟩
  | cons k p ih =>
    intro r hp hr
    have hk : k < x.length := hp k (List.mem_cons_self k p)
    have hkr : k < r.length := hr k (List.mem_cons_self k p)
    obtain ⟨r', h1, h2, h3⟩ := ih (r.set k (term ops (x.get ⟨k, hk⟩)))
      (fun k' hk' => hp k' (List.mem_cons_of_mem k hk'))
      (fun k' hk' => by rw [List.length_set]; exact hr k' (List.mem_cons_of_mem k hk'))
    refine ⟨r', ?_, by rw [h2, List.length_set], ?_⟩
    · rw [writesInOrder, body_eq ops x r k hk hkr]
      exact h1
    · intro j
      rw [h3 j]
      by_cases hj : j ∈ p
      · simp [hj]
      · by_cases e : k = j
        · subst e
          simp [hj, List.getElem?_set, hkr, List.getElem?_eq_getElem hk]
        · have e' : ¬ j = k := fun h => e h.symm
          simp [hj, List.getElem?_set, e, e']

/-- The writes at the indices of a permutation `p` of `0..N-1`, in the order of
`p`, on the zero-filled vector of length `N ≤ length(x)` give `term` of the
first `N` elements of `x`. -/
theorem writesInOrder_take {α : Type} (ops : Prim α) (x : List α) (N : Nat) (hN : N ≤ x.length)
    (p : List Nat) (hp : p.Perm (List.range N)) :
    writesInOrder ops x p (List.replicate N ops.zero) = .ok ((x.take N).map (term ops)) := by
  have hmem : ∀ j, j ∈ p ↔ j < N := fun j => by
    rw [hp.mem_iff, List.mem_range]
  obtain ⟨r', h1, h2, h3⟩ := writesInOrder_spec ops x p (List.replicate N ops.zero)
    (fun k hk => by have := (hmem k).mp hk; omega)
    (fun k hk => by rw [List.length_replicate]; exact (hmem k).mp hk)
  rw [h1]
  congr 1
  apply List.ext_getElem?
  intro j
  rw [h3 j, List.getElem?_map, List.getElem?_take]
  by_cases hj : j < N
  · simp [(hmem j).mpr hj, hj]
  · have hn : ¬ j ∈ p := fun h => hj ((hmem j).mp h)
    simp [hn, List.getElem?_replicate, hj]

theorem writesInOrder_perm {α : Type} (ops : Prim α) (x : List α) (p : List Nat)
    (hp : p.Perm (List.range x.length)) :
    writesInOrder ops x p (List.replicate x.length ops.zero) = .ok (x.map (term ops)) := by
  rw [writesInOrder_take ops x x.length (le_refl _) p hp, List.take_length]

/-- C13, evaluated at an input of `n = 2^32 + 1` equal elements and the identity
permutation of `0..n-1`: the writes in that order on the zero-filled result of
length `n` give the element-wise map over the input, `n` elements, while
`fuse` returns one element. -/
theorem fuse_writes_differ_on_long_input {α : Type} (ops : Prim α) (a : α) :
    (List.range (List.replicate (2 ^ 32 + 1) a).length).Perm
        (List.range (List.replicate (2 ^ 32 + 1) a).length) ∧
      writesInOrder ops (List.replicate (2 ^ 32 + 1) a)
          (List.range (List.replicate (2 ^ 32 + 1) a).length)
          (List.replicate (List.replicate (2 ^ 32 + 1) a).length ops.zero) =
        .ok ((List.replicate (2 ^ 32 + 1) a).map (term ops)) ∧
      fuse ops (List.replicate (2 ^ 32 + 1) a) = .ok [term ops a] ∧
      fuse ops (List.replicate (2 ^ 32 + 1) a) ≠
        writesInOrder ops (List.replicate (2 ^ 32 + 1) a)
          (List.range (List.replicate (2 ^ 32 + 1) a).length)
          (List.replicate (List.replicate (2 ^ 32 + 1) a).length ops.zero) := by
  have hw := writesInOrder_perm ops (List.replicate (2 ^ 32 + 1) a)
    (List.range (List.replicate (2 ^ 32 + 1) a).length) (List.Perm.refl _)
  refine ⟨List.Perm.refl _, hw, fuse_replicate_long ops a, ?_⟩
  rw [hw, fuse_replicate_long]
  intro h
  have h1 : [term ops a] = (List.replicate (2 ^ 32 + 1) a).map (term ops) := by
    injection h
  have h2 := congrArg List.length h1
  rw [List.length_map, List.length_replicate] at h2
  simp at h2

/-- With `N` the 32-bit value of the length of the input `X`: for every
permutation `p` of the indices `0..N-1`, the writes
`result[p(k)] := exp(X[p(k)]) + 3*sin(X[p(k)])` performed in the order of `p` on
the zero-filled result of length `N` give what the ascending loop of `fuse`
gives, the result of `fuse`. -/
theorem fuse_order_independent {α : Type} (ops : Prim α) (X : List α) (N : Nat) (p : List Nat)
    (hN : toInt32 (X.length : Int) = (N : Int)) (hp : p.Perm (List.range N)) :
    fuse ops X = writesInOrder ops X p (List.replicate N ops.zero) ∧
      Except.map (fun s : State α => s.result)
          (loop ops (N : Int) N { x := X, result := List.replicate N ops.zero, i := 0 }) =
        writesInOrder ops X p (List.replicate N ops.zero) ∧
      (X.length < 2 ^ 31 → N = X.length ∧ fuse ops X = .ok (X.map (term ops))) := by
  have hle : N ≤ X.length := by
    have := toInt32_le X.length
    rw [hN] at this
    exact_mod_cast this
  have hw := writesInOrder_take ops X N hle p hp
  refine ⟨?_, ?_, ?_⟩
  · rw [hw, fuse_eq, hN, if_neg (by omega)]
    simp
  · rw [hw, loop_full ops X N hle]
    rfl
  · intro hX
    have := toInt32_of_lt X.length hX
    rw [hN] at this
    exact ⟨by exact_mod_cast this, fuse_eq_map ops X hX⟩

/-- The order independence at the input `[1, 2, 3]` and the order `2, 0, 1`. -/
theorem fuse_order_independent_witness :
    fuse testOps [1, 2, 3] = writesInOrder testOps [1, 2, 3] [2, 0, 1]
      (List.replicate 3 testOps.zero) :=
  (fuse_order_independent testOps [1, 2, 3] 3 [2, 0, 1] (by rfl) (by decide)).1

/-! ## The call over a heap -/

theorem set_self_of_getElem? {α : Type} (l : List α) (k : Nat) (v : α) (h : l[k]? = some v) :
    l.set k v = l := by
  apply List.ext_getElem?
  intro j
  rw [List.getElem?_set]
  by_cases e : k = j
  · subst e
    have hk : k < l.length := by
      by_contra hn
      rw [List.getElem?_eq_none (by omega)] at h
      cases h
    simp [hk, h]
  · simp [e]

theorem bodyIn_eq {α : Type} (ops : Prim α) (h : Heap α) (x r : Nat) (vx vr : List α) (i : Int)
    (hx : h.objs[x]? = some vx) (hr : h.objs[r]? = some vr) :
    bodyIn ops { heap := h, x := x, result := r, i := i } =
      match body ops { x := vx, result := vr, i := i } with
      | .error e => .error e
      | .ok s' => .ok { heap := { objs := h.objs.set r s'.result }, x := x, result := r, i := s'.i } := by
  simp only [bodyIn, body, readIn, writeIn, hx, hr]
  cases hrd : read vx i with
  | error e => rfl
  | ok a =>
    simp only []
    cases hw : write vr i (rhs ops a a) with
    | error e => rfl
    | ok l => rfl

theorem loopIn_eq {α : Type} (ops : Prim α) (n : Int) (x r : Nat) (vx : List α) (hxr : x ≠ r) :
    ∀ (fuel : Nat) (h : Heap α) (vr : List α) (i : Int),
      h.objs[x]? = some vx → h.objs[r]? = some vr →
      loopIn ops n fuel { heap := h, x := x, result := r, i := i } =
        match loop ops n fuel { x := vx, result := vr, i := i } with
        | .error e => .error e
        | .ok s' =>
          .ok { heap := { objs := h.objs.set r s'.result }, x := x, result := r, i := s'.i } := by
  intro fuel
  induction fuel with
  | zero =>
    intro h vr i hx hr
    by_cases hi : i < n
    · simp [loopIn, loop, hi]
    · simp [loopIn, loop, hi, set_self_of_getElem? h.objs r vr hr]
  | succ fuel ih =>
    intro h vr i hx hr
    by_cases hi : i < n
    · have e1 : loopIn ops n (fuel + 1) { heap := h, x := x, result := r, i := i } =
          match bodyIn ops { heap := h, x := x, result := r, i := i } with
          | .error e => .error e
          | .ok s' => loopIn ops n fuel s' := by
        rw [loopIn]; simp [hi]
      have e2 : loop ops n (fuel + 1) { x := vx, result := vr, i := i } =
          match body ops { x := vx, result := vr, i := i } with
          | .error e => .error e
          | .ok s' => loop ops n fuel s' := by
        rw [loop]; simp [hi]
      rw [e1, e2, bodyIn_eq ops h x r vx vr i hx hr]
      cases hb : body ops { x := vx, result := vr, i := i } with
      | error e => rfl
      | ok s1 =>
        have hs1 : s1.x = vx := (body_ok ops _ s1 hb).1
        have hrl : r < h.objs.length := by
          by_contra hn
          rw [List.getElem?_eq_none (by omega)] at hr
          cases hr
        have hx1 : (h.objs.set r s1.result)[x]? = some vx := by
          rw [List.getElem?_set]
          have : ¬ r = x := fun e => hxr e.symm
          simp [this, hx]
        have hr1 : (h.objs.set r s1.result)[r]? = some s1.result := by
          rw [List.getElem?_set]
          simp [hrl]
        have := ih { objs := h.objs.set r s1.result } s1.result s1.i hx1 hr1
        simp only [List.set_set] at this
        have hs : ({ x := vx, result := s1.result, i := s1.i } : State α) = s1 := by
          cases s1
          simp only at hs1
          subst hs1
          rfl
        rw [hs] at this
        exact this
    · simp [loopIn, loop, hi, set_self_of_getElem? h.objs r vr hr]

theorem getElem?_lt_length {α : Type} (l : List α) (k : Nat) (v : α) (h : l[k]? = some v) :
    k < l.length := by
  by_contra hn
  rw [List.getElem?_eq_none (by omega)] at h
  cases h

/-- Over a heap, the call ends as `fuse` on the argument's elements does, and its
result is one new vector appended to the heap. -/
theorem fuseIn_eq {α : Type} (ops : Prim α) (h : Heap α) (x : Nat) (vx : List α)
    (hx : h.objs[x]? = some vx) :
    fuseIn ops h x =
      match fuse ops vx with
      | .error e => .error e
      | .ok r => .ok ({ objs := h.objs ++ [r] }, h.objs.length) := by
  have hxl : x < h.objs.length := getElem?_lt_length _ _ _ hx
  simp only [fuseIn, fuse, run, allocIn, hx]
  generalize toInt32 (vx.length : Int) = n
  cases ha : alloc ops n with
  | error e => rfl
  | ok v =>
    have hx1 : (h.objs ++ [v])[x]? = some vx := by
      rw [List.getElem?_append_left hxl]; exact hx
    have hr1 : (h.objs ++ [v])[h.objs.length]? = some v := by simp
    have hl := loopIn_eq ops n x h.objs.length vx (by omega) n.toNat
      { objs := h.objs ++ [v] } v 0 hx1 hr1
    simp only [] at hl ⊢
    rw [hl]
    cases loop ops n n.toNat { x := vx, result := v, i := 0 } with
    | error e => rfl
    | ok s1 => simp

/-- C12: over a heap in which `x` is the handle of the input, every call that
returns gives a handle different from `x` that named no vector before the call;
the call changes no vector of the heap, the input included; the vector it
returns holds the result of `fuse`; and no write through the returned handle
changes the input.  On an input of length below `2^31` the call returns. -/
theorem fuse_result_not_aliased {α : Type} (ops : Prim α) (h : Heap α) (x : Nat) (vx : List α)
    (hx : h.objs[x]? = some vx) :
    (∀ (h' : Heap α) (r : Nat), fuseIn ops h x = .ok (h', r) →
        r ≠ x ∧ h.objs[r]? = none ∧ h'.objs[x]? = some vx ∧
          (∀ (y : Nat) (v : List α), h.objs[y]? = some v → h'.objs[y]? = some v) ∧
          (∃ res, fuse ops vx = .ok res ∧ h'.objs[r]? = some res) ∧
          ∀ (i : Int) (a : α) (h'' : Heap α), writeIn h' r i a = .ok h'' →
            h''.objs[x]? = some vx) ∧
      (vx.length < 2 ^ 31 →
        ∃ (h' : Heap α) (r : Nat), fuseIn ops h x = .ok (h', r) ∧
          h'.objs[r]? = some (vx.map (term ops))) := by
  have hxl : x < h.objs.length := getElem?_lt_length _ _ _ hx
  constructor
  · intro h' r hf
    rw [fuseIn_eq ops h x vx hx] at hf
    cases hfu : fuse ops vx with
    | error e => rw [hfu] at hf; cases hf
    | ok res =>
      rw [hfu] at hf
      simp only [Except.ok.injEq, Prod.mk.injEq] at hf
      obtain ⟨rfl, rfl⟩ := hf
      have hkeep : ∀ (y : Nat) (v : List α), h.objs[y]? = some v →
          (h.objs ++ [res])[y]? = some v := by
        intro y v hy
        rw [List.getElem?_append_left (getElem?_lt_length _ _ _ hy)]; exact hy
      refine ⟨by omega, List.getElem?_eq_none (le_refl _), hkeep x vx hx, hkeep,
        ⟨res, rfl, by simp⟩, ?_⟩
      intro i a h'' hw
      unfold writeIn at hw
      simp only [List.getElem?_concat_length] at hw
      split at hw
      · cases hw
      · cases hw
        simp only
        rw [List.getElem?_set]
        have : ¬ h.objs.length = x := by omega
        simp only [this, if_false]
        exact hkeep x vx hx
  · intro hlen
    refine ⟨{ objs := h.objs ++ [vx.map (term ops)] }, h.objs.length, ?_, by simp⟩
    rw [fuseIn_eq ops h x vx hx, fuse_eq_map ops vx hlen]

/-- C12 on the heap whose one vector is `[1, 2]`, with handle `0`. -/
theorem fuse_result_not_aliased_witness :
    ∃ (h' : Heap Int) (r : Nat), fuseIn testOps { objs := [[1, 2]] } 0 = .ok (h', r) ∧
      h'.objs[r]? = some (([1, 2] : List Int).map (term testOps)) :=
  (fuse_result_not_aliased testOps { objs := [[1, 2]] } 0 [1, 2] rfl).2 (by decide)

/-- C15: the 32-bit value of the length is the length exactly when the length
is at most `2^31 - 1`; then the call returns a result of that length with the
counter at the length, every index visited; for a length of `2^31` or more the
32-bit value differs from the length and no result has the length of the
input. -/
theorem fuse_length_in_int {α : Type} (ops : Prim α) (x : List α) :
    (toInt32 (x.length : Int) = (x.length : Int) ↔ x.length ≤ 2 ^ 31 - 1) ∧
      (x.length ≤ 2 ^ 31 - 1 →
        ∃ s, run ops x = .ok s ∧ s.result.length = x.length ∧ s.i = (x.length : Int) ∧
          s.result = x.map (term ops)) ∧
      (2 ^ 31 ≤ x.length →
        toInt32 (x.length : Int) ≠ (x.length : Int) ∧
          ∀ r, fuse ops x = .ok r → r.length ≠ x.length) := by
  have hiff := toInt32_eq_iff x.length
  refine ⟨by rw [hiff]; omega, ?_, ?_⟩
  · intro hx
    have hlt : x.length < 2 ^ 31 := by omega
    refine ⟨{ x := x, result := x.map (term ops), i := (x.length : Int) }, ?_, by simp, rfl, rfl⟩
    rw [run_eq, toInt32_of_lt x.length hlt, if_neg (by omega)]
    simp
  · intro hx
    have hne : toInt32 (x.length : Int) ≠ (x.length : Int) := fun e => by
      have := hiff.mp e
      omega
    refine ⟨hne, ?_⟩
    intro r hr
    have hle := toInt32_le x.length
    rw [fuse_eq] at hr
    generalize toInt32 (x.length : Int) = n at hne hle hr
    split at hr
    · cases hr
    · cases hr
      simp only [List.length_map, List.length_take]
      omega

/-- The elements of the vector a call over a heap returns are the result of
`fuse` on the elements of the argument, whatever the heap and the handle. -/
theorem fuseIn_content {α : Type} (ops : Prim α) (h : Heap α) (x : Nat) (vx : List α)
    (hx : h.objs[x]? = some vx) :
    Except.map (fun q : Heap α × Nat => q.1.objs[q.2]?) (fuseIn ops h x) =
      Except.map some (fuse ops vx) := by
  rw [fuseIn_eq ops h x vx hx]
  cases fuse ops vx with
  | error e => rfl
  | ok r => simp [Except.map]

/-- C9: two calls on equal inputs return vectors with the same elements, whatever
the state outside the argument: the two heaps and the two handles may differ.
In particular a second call on the same input, made in the heap the first call
left, returns a vector with the elements the first one returned, and leaves the
first result as it was. -/
theorem fuse_deterministic_in_heap {α : Type} (ops : Prim α) (h1 h2 : Heap α) (x1 x2 : Nat)
    (X Y : List α) (hX : h1.objs[x1]? = some X) (hY : h2.objs[x2]? = some Y) (hXY : X = Y) :
    Except.map (fun q : Heap α × Nat => q.1.objs[q.2]?) (fuseIn ops h1 x1) =
        Except.map (fun q : Heap α × Nat => q.1.objs[q.2]?) (fuseIn ops h2 x2) ∧
      (∀ (h' : Heap α) (r : Nat), fuseIn ops h1 x1 = .ok (h', r) →
        ∃ (h'' : Heap α) (r' : Nat), fuseIn ops h' x1 = .ok (h'', r') ∧ r' ≠ r ∧
          h''.objs[r']? = h'.objs[r]? ∧ h''.objs[r]? = h'.objs[r]?) ∧
      (X.length < 2 ^ 31 →
        ∃ (h' : Heap α) (r : Nat), fuseIn ops h1 x1 = .ok (h', r) ∧
          h'.objs[r]? = some (X.map (term ops))) := by
  subst hXY
  refine ⟨by rw [fuseIn_content ops h1 x1 X hX, fuseIn_content ops h2 x2 X hY], ?_, ?_⟩
  · intro h' r hf
    have hxl : x1 < h1.objs.length := getElem?_lt_length _ _ _ hX
    rw [fuseIn_eq ops h1 x1 X hX] at hf
    cases hfu : fuse ops X with
    | error e => rw [hfu] at hf; cases hf
    | ok res =>
      rw [hfu] at hf
      simp only [Except.ok.injEq, Prod.mk.injEq] at hf
      obtain ⟨rfl, rfl⟩ := hf
      have hx' : (h1.objs ++ [res])[x1]? = some X := by
        rw [List.getElem?_append_left hxl]; exact hX
      refine ⟨{ objs := (h1.objs ++ [res]) ++ [res] }, (h1.objs ++ [res]).length, ?_, ?_, ?_, ?_⟩
      · rw [fuseIn_eq ops { objs := h1.objs ++ [res] } x1 X hx', hfu]
      · simp
      · simp only []
        rw [List.getElem?_concat_length, List.getElem?_concat_length]
      · have hlt : h1.objs.length < (h1.objs ++ [res]).length := by simp
        simp only []
        rw [List.getElem?_append_left hlt]
  · intro hlen
    refine ⟨{ objs := h1.objs ++ [X.map (term ops)] }, h1.objs.length, ?_, by simp⟩
    rw [fuseIn_eq ops h1 x1 X hX, fuse_eq_map ops X hlen]

/-- C9 on two heaps that hold the input `[1, 2, 3]` under different handles, next
to different other vectors. -/
theorem fuse_deterministic_in_heap_witness :
    Except.map (fun q : Heap Int × Nat => q.1.objs[q.2]?)
        (fuseIn testOps { objs := [[1, 2, 3]] } 0) =
      Except.map (fun q : Heap Int × Nat => q.1.objs[q.2]?)
        (fuseIn testOps { objs := [[7], [1, 2, 3], [8, 9]] } 1) :=
  (fuse_deterministic_in_heap testOps { objs := [[1, 2, 3]] } { objs := [[7], [1, 2, 3], [8, 9]] }
    0 1 [1, 2, 3] [1, 2, 3] rfl rfl rfl).1

/-! ## Special values -/

end Fuse
